import Mathlib

/-!
Shallow embedding of the portfolio metrics computations of the repository's
two scripts, Home.py and main.py.  Dates are modelled as integer day numbers
(a pandas Timestamp difference in whole days), portfolio values as rationals,
and the result of numeric coercion with errors equal to coerce as an
optional rational (none is the NaN a failed coercion produces).  The
floating-point power operator of Python is kept abstract as a function
parameter fpow, since none of the claims constrains its value.
-/

namespace Portfolio

/-- Positional access on a value list, as iloc does on a pandas Series
(every use in the scripts is in range; out of range defaults to 0 here). -/
def valAt (l : List ℚ) (i : ℕ) : ℚ := l.getD i 0

/-- Running maximum of the values up to index i: the cummax recurrence
of Home.py line 97 and main.py line 32. -/
def runMax (l : List ℚ) : ℕ → ℚ
  | 0 => valAt l 0
  | i + 1 => max (runMax l i) (valAt l (i + 1))

/-- The drawdown series, elementwise (values minus running max) over
running max, from Home.py line 98 and main.py line 33. -/
def drawdown (l : List ℚ) : List ℚ :=
  (List.range l.length).map (fun i => (valAt l i - runMax l i) / runMax l i)

/-- The drawdown series in the algebraically equivalent form values over
running max, minus one, from main.py line 123. -/
def drawdown_alt (l : List ℚ) : List ℚ :=
  (List.range l.length).map (fun i => valAt l i / runMax l i - 1)

/-- Minimum of a non-empty pandas Series of rationals, as Series.min on
the drawdown series (Home.py line 99, main.py line 34); 0 on an empty
list, a case no script reaches. -/
def seriesMin : List ℚ → ℚ
  | [] => 0
  | v :: vs => vs.foldl min v

/-- Maximum drawdown, the minimum of the drawdown series
(Home.py line 99, main.py line 34). -/
def max_drawdown (l : List ℚ) : ℚ := seriesMin (drawdown l)

/-- The value column of a valuation series. -/
def values (s : List (ℤ × ℚ)) : List ℚ := s.map Prod.snd

/-- The date index of a valuation series. -/
def dates (s : List (ℤ × ℚ)) : List ℤ := s.map Prod.fst

/-- First value of the series, iloc zero (Home.py line 82, main.py line 27). -/
def firstVal (s : List (ℤ × ℚ)) : ℚ := valAt (values s) 0

/-- Last value of the series, iloc minus one (Home.py line 82, main.py line 27). -/
def lastVal (s : List (ℤ × ℚ)) : ℚ := (values s).getLast?.getD 0

/-- First date of the series (Home.py line 85). -/
def firstDate (s : List (ℤ × ℚ)) : ℤ := (dates s).headI

/-- Last date of the series (Home.py line 86). -/
def lastDate (s : List (ℤ × ℚ)) : ℤ := (dates s).getLast?.getD 0

/-- Overall return, last value over first value minus one
(Home.py line 82, main.py line 27). -/
def total_return (s : List (ℤ × ℚ)) : ℚ := lastVal s / firstVal s - 1

/-- Day span of the series (Home.py line 87, main.py line 28). -/
def days (s : List (ℤ × ℚ)) : ℤ := lastDate s - firstDate s

/-- Year span of the series, days over 365.25
(Home.py line 88, main.py line 29). -/
def years (s : List (ℤ × ℚ)) : ℚ := (days s : ℚ) / (365.25 : ℚ)

/-- Compound annual growth rate as Home.py lines 91 to 94 compute it: the
value ratio raised to one over the year span, minus one, guarded by a
positive year span and 0 otherwise. -/
def cagr (fpow : ℚ → ℚ → ℚ) (s : List (ℤ × ℚ)) : ℚ :=
  if 0 < years s then fpow (lastVal s / firstVal s) (1 / years s) - 1 else 0

/-- Compound annual growth rate as main.py line 30 computes it: no guard on
the year span, so a zero span raises ZeroDivisionError on one over years,
modelled as none. -/
def cagr_main (fpow : ℚ → ℚ → ℚ) (s : List (ℤ × ℚ)) : Option ℚ :=
  if years s = 0 then none
  else some (fpow (lastVal s / firstVal s) (1 / years s) - 1)

/-- The Sharpe-like reward-to-risk ratio of Home.py lines 102 to 105: cagr
over the absolute maximum drawdown when the latter is nonzero, else 0. -/
def sharpe_ratio (fpow : ℚ → ℚ → ℚ) (s : List (ℤ × ℚ)) : ℚ :=
  if max_drawdown (values s) ≠ 0 then
    cagr fpow s / |max_drawdown (values s)| else 0

/-- The last non-null value among the rows carrying date d, in frame order:
what a pandas groupby on the date followed by last yields for the group of d
(Home.py line 79, main.py line 119); groupby last skips NaN and returns NaN
only when the whole group is NaN. -/
def groupLast (rows : List (ℤ × Option ℚ)) (d : ℤ) : Option ℚ :=
  (rows.filter (fun p => p.1 = d)).foldl
    (fun acc p =>
      match p.2 with
      | some v => some v
      | none => acc) none

/-- The deduplicated frame: one row per date, each carrying the last
non-null value of its group, sorted ascending by date, from a groupby on
the date followed by last and a sort on the index
(Home.py line 79, main.py line 119). -/
def dedupSort (rows : List (ℤ × Option ℚ)) : List (ℤ × Option ℚ) :=
  (List.insertionSort (fun a b => a ≤ b) (rows.map Prod.fst).dedup).map
    (fun d => (d, groupLast rows d))

/-- Sorting the raw frame by the date column (main.py line 19). -/
def sortByDate (rows : List (ℤ × Option ℚ)) : List (ℤ × Option ℚ) :=
  List.insertionSort (fun p q => p.1 ≤ q.1) rows

/-- The rows whose value coerced, read as a valuation series; the claims
that consume it assume every value coerces, making this the identity on
content. -/
def seriesOf (rows : List (ℤ × Option ℚ)) : List (ℤ × ℚ) :=
  rows.filterMap (fun p => p.2.map (fun v => (p.1, v)))

/-- Modelled from the spec: the two error kinds of the error taxonomy,
InsufficientDataError and InvalidBaselineError; no error class exists in
the scripts. -/
inductive MetricsError where
  | insufficientData
  | invalidBaseline
deriving DecidableEq

/-- Modelled from the spec: the MetricsResult snapshot of section 3; the
flag records whether the cagr field is meaningful; the scripts hold the
fields in loose variables instead. -/
structure MetricsResult where
  total_return : ℚ
  cagr : ℚ
  cagr_defined : Bool
  drawdown_series : List ℚ
  max_drawdown : ℚ
  risk_ratio : ℚ
deriving DecidableEq

/-- Modelled from the spec: compute_metrics of section 4.1, absent from the
scripts, which run the same arithmetic inline with no validation; the
arithmetic of every field follows Home.py lines 82 to 105, the drawdown
series is the spec's ratio form, and the two guards implement the error
taxonomy of section 7. -/
def compute_metrics (fpow : ℚ → ℚ → ℚ) (s : List (ℤ × ℚ)) :
    Except MetricsError MetricsResult :=
  if s = [] then .error .insufficientData
  else if firstVal s ≤ 0 then .error .invalidBaseline
  else .ok {
    total_return := total_return s
    cagr := cagr fpow s
    cagr_defined := decide (0 < years s)
    drawdown_series := drawdown_alt (values s)
    max_drawdown := seriesMin (drawdown_alt (values s))
    risk_ratio :=
      if seriesMin (drawdown_alt (values s)) ≠ 0 then
        cagr fpow s / |seriesMin (drawdown_alt (values s))| else 0 }

instance : IsTotal (ℤ × Option ℚ) (fun p q => p.1 ≤ q.1) :=
  ⟨fun a b => le_total a.1 b.1⟩

instance : IsTrans (ℤ × Option ℚ) (fun p q => p.1 ≤ q.1) :=
  ⟨fun _ _ _ h1 h2 => le_trans h1 h2⟩

instance : IsAntisymm (ℤ × Option ℚ) (fun p q => p.1 < q.1) :=
  ⟨fun _ _ h1 h2 => absurd h2 (lt_asymm h1)⟩

/-! Helper lemmas about the running maximum, the series minimum and list
access. -/

theorem valAt_le_runMax (l : List ℚ) : ∀ i j, j ≤ i → valAt l j ≤ runMax l i := by
  intro i
  induction i with
  | zero =>
    intro j hj
    have hj0 : j = 0 := Nat.le_zero.mp hj
    subst hj0
    exact le_refl _
  | succ i ih =>
    intro j hj
    by_cases hj1 : j ≤ i
    · exact le_trans (ih j hj1) (le_max_left _ _)
    · have hj2 : j = i + 1 := by omega
      subst hj2
      exact le_max_right _ _

theorem runMax_attained (l : List ℚ) : ∀ i, ∃ j, j ≤ i ∧ runMax l i = valAt l j := by
  intro i
  induction i with
  | zero => exact ⟨0, le_refl 0, rfl⟩
  | succ i ih =>
    rcases ih with ⟨j, hj, hje⟩
    rcases le_total (valAt l (i + 1)) (runMax l i) with h | h
    · refine ⟨j, Nat.le_succ_of_le hj, ?_⟩
      rw [runMax, max_eq_left h]
      exact hje
    · refine ⟨i + 1, le_refl _, ?_⟩
      rw [runMax, max_eq_right h]

theorem valAt_mem (l : List ℚ) (i : ℕ) (h : i < l.length) : valAt l i ∈ l := by
  rw [valAt, List.getD_eq_getElem l 0 h]
  exact List.getElem_mem h

theorem runMax_pos (l : List ℚ) (hpos : ∀ x ∈ l, 0 < x) (i : ℕ)
    (h : i < l.length) : 0 < runMax l i := by
  rcases runMax_attained l i with ⟨j, hj, hje⟩
  rw [hje]
  exact hpos _ (valAt_mem l j (lt_of_le_of_lt hj h))

theorem length_drawdown (l : List ℚ) : (drawdown l).length = l.length := by
  simp [drawdown]

theorem drawdown_get (l : List ℚ) (i : ℕ) (h : i < (drawdown l).length) :
    (drawdown l).get ⟨i, h⟩ = (valAt l i - runMax l i) / runMax l i := by
  simp [drawdown, List.get_eq_getElem, List.getElem_map, List.getElem_range]

theorem foldl_min_le (vs : List ℚ) :
    ∀ a : ℚ, vs.foldl min a ≤ a ∧ ∀ x ∈ vs, vs.foldl min a ≤ x := by
  induction vs with
  | nil =>
    intro a
    exact ⟨le_refl a, by simp⟩
  | cons v vs ih =>
    intro a
    have h1 := (ih (min a v)).1
    refine ⟨le_trans h1 (min_le_left a v), ?_⟩
    intro x hx
    rcases List.mem_cons.mp hx with h | h
    · subst h
      exact le_trans h1 (min_le_right a x)
    · exact (ih (min a v)).2 x h

theorem foldl_min_mem (vs : List ℚ) :
    ∀ a : ℚ, vs.foldl min a = a ∨ vs.foldl min a ∈ vs := by
  induction vs with
  | nil =>
    intro a
    exact Or.inl rfl
  | cons v vs ih =>
    intro a
    rcases ih (min a v) with h | h
    · rcases min_choice a v with hc | hc
      · exact Or.inl (by rw [List.foldl_cons, h, hc])
      · refine Or.inr ?_
        rw [List.foldl_cons, h, hc]
        exact List.mem_cons_self _ _
    · exact Or.inr (List.mem_cons_of_mem v h)

theorem seriesMin_mem (l : List ℚ) (h : l ≠ []) : seriesMin l ∈ l := by
  cases l with
  | nil => exact absurd rfl h
  | cons v vs =>
    rcases foldl_min_mem vs v with h1 | h1
    · rw [seriesMin, h1]
      exact List.mem_cons_self _ _
    · rw [seriesMin]
      exact List.mem_cons_of_mem v h1

theorem seriesMin_le (l : List ℚ) (x : ℚ) (hx : x ∈ l) : seriesMin l ≤ x := by
  cases l with
  | nil => simp at hx
  | cons v vs =>
    rcases List.mem_cons.mp hx with h | h
    · subst h
      exact (foldl_min_le vs x).1
    · exact (foldl_min_le vs v).2 x h

theorem getD_zero_eq_head (l : List ℚ) (h : l ≠ []) : l.getD 0 0 = l.head h := by
  cases l with
  | nil => exact absurd rfl h
  | cons a t => rfl

/-! The claims about the drawdown series and the scalar metrics. -/

/-- Claim C3: for a non-empty series of strictly positive values, every
entry of the drawdown series equals the value over the running maximum of
the values so far, minus one; it is non-positive; and it is zero exactly at
the indices where the value attains the running peak (index 0 included). -/
theorem drawdown_pointwise (l : List ℚ) (hpos : ∀ x ∈ l, 0 < x) (i : ℕ)
    (hi : i < (drawdown l).length) :
    (drawdown l).get ⟨i, hi⟩ = valAt l i / runMax l i - 1 ∧
    (drawdown l).get ⟨i, hi⟩ ≤ 0 ∧
    ((drawdown l).get ⟨i, hi⟩ = 0 ↔ ∀ j ≤ i, valAt l j ≤ valAt l i) := by
  have hil : i < l.length := by
    rw [length_drawdown] at hi
    exact hi
  have hm : 0 < runMax l i := runMax_pos l hpos i hil
  have hv : valAt l i ≤ runMax l i := valAt_le_runMax l i i (le_refl i)
  have hget : (drawdown l).get ⟨i, hi⟩ = (valAt l i - runMax l i) / runMax l i :=
    drawdown_get l i hi
  have hm0 : runMax l i ≠ 0 := ne_of_gt hm
  have hratio : (valAt l i - runMax l i) / runMax l i = valAt l i / runMax l i - 1 := by
    field_simp
  refine ⟨by rw [hget, hratio], ?_, ?_⟩
  · rw [hget, hratio]
    exact sub_nonpos.mpr ((div_le_one hm).mpr hv)
  · rw [hget]
    constructor
    · intro h0
      have hnum : valAt l i - runMax l i = 0 := by
        rcases div_eq_zero_iff.mp h0 with h | h
        · exact h
        · exact absurd h hm0
      have hvm : valAt l i = runMax l i := by linarith
      intro j hj
      calc valAt l j ≤ runMax l i := valAt_le_runMax l i j hj
        _ = valAt l i := hvm.symm
    · intro hall
      rcases runMax_attained l i with ⟨j, hj, hje⟩
      have h1 : runMax l i ≤ valAt l i := by
        rw [hje]
        exact hall j hj
      have hvm : valAt l i = runMax l i := le_antisymm hv h1
      rw [hvm, sub_self, zero_div]

/-- Concrete check for claim C3 at the spec's drawdown scenario. -/
theorem drawdown_pointwise_checked :
    (drawdown [(100 : ℚ), 80, 120]).get ⟨1, by decide⟩ ≤ 0 :=
  (drawdown_pointwise [(100 : ℚ), 80, 120] (by decide) 1 (by decide)).2.1

/-- Claim C4: for a non-empty series of strictly positive values, the
maximum drawdown is the minimum element of the drawdown series, and it is
zero when the values never fall below the running peak, in particular for a
single-entry series. -/
theorem max_drawdown_spec (l : List ℚ) (hne : l ≠ []) (hpos : ∀ x ∈ l, 0 < x) :
    (max_drawdown l ∈ drawdown l ∧ ∀ x ∈ drawdown l, max_drawdown l ≤ x) ∧
    ((∀ i, i < l.length → valAt l i = runMax l i) → max_drawdown l = 0) ∧
    (l.length = 1 → max_drawdown l = 0) := by
  have hdne : drawdown l ≠ [] := by
    intro h
    apply hne
    have hlen := congrArg List.length h
    rw [length_drawdown] at hlen
    exact List.length_eq_zero.mp hlen
  have hflat : (∀ i, i < l.length → valAt l i = runMax l i) → max_drawdown l = 0 := by
    intro hf
    have hall : ∀ x ∈ drawdown l, x = 0 := by
      intro x hx
      simp only [drawdown, List.mem_map, List.mem_range] at hx
      rcases hx with ⟨i, hi, he⟩
      rw [← he, hf i hi, sub_self, zero_div]
    exact hall _ (seriesMin_mem _ hdne)
  refine ⟨⟨seriesMin_mem _ hdne, fun x hx => seriesMin_le _ x hx⟩, hflat, ?_⟩
  intro h1
  apply hflat
  intro i hi
  have hi0 : i = 0 := by omega
  subst hi0
  rfl

/-- Concrete check for claim C4 at the spec's drawdown scenario. -/
theorem max_drawdown_spec_checked :
    max_drawdown [(100 : ℚ), 80, 120] ∈ drawdown [(100 : ℚ), 80, 120] :=
  (max_drawdown_spec [(100 : ℚ), 80, 120] (by decide) (by decide)).1.1

/-- Claim C5: for a non-empty series with a strictly positive first value,
the total return is the last value divided by the first, minus one. -/
theorem total_return_spec (s : List (ℤ × ℚ)) (hne : values s ≠ [])
    (hpos : 0 < firstVal s) :
    total_return s = (values s).getLast hne / (values s).head hne - 1 := by
  rw [total_return, lastVal, firstVal, valAt]
  rw [List.getLast?_eq_getLast _ hne, Option.getD_some, getD_zero_eq_head _ hne]

/-- Concrete check for claim C5 at the spec's first scenario: a rise from
100 to 120 is a twenty percent total return. -/
theorem total_return_spec_checked :
    total_return [((0 : ℤ), (100 : ℚ)), (365, 120)] = 1 / 5 := by
  rw [total_return_spec [((0 : ℤ), (100 : ℚ)), (365, 120)] (by decide) (by decide)]
  norm_num [values]

theorem headI_le_getLast (l : List ℤ) (hs : List.Sorted (fun a b => a ≤ b) l)
    (h : l ≠ []) : l.headI ≤ l.getLast?.getD 0 := by
  cases l with
  | nil => exact absurd rfl h
  | cons a t =>
    rw [List.getLast?_eq_getLast _ h, Option.getD_some, List.headI]
    rcases List.mem_cons.mp (List.getLast_mem h) with he | he
    · simp [he]
    · exact (List.sorted_cons.mp hs).1 _ he

/-- Claim C2: on a sorted series of at least two entries with a strictly
positive first value, the compound annual growth rate follows the formula
with the year span equal to the day span over 365.25 when the first and
last dates differ, and is reported as zero by convention when they
coincide. -/
theorem cagr_formula (fpow : ℚ → ℚ → ℚ) (s : List (ℤ × ℚ)) (h2 : 2 ≤ s.length)
    (hpos : 0 < firstVal s)
    (hsort : List.Sorted (fun a b => a ≤ b) (dates s)) :
    (firstDate s ≠ lastDate s →
      0 < years s ∧
      years s = ((lastDate s - firstDate s : ℤ) : ℚ) / (365.25 : ℚ) ∧
      cagr fpow s = fpow (lastVal s / firstVal s) (1 / years s) - 1) ∧
    (firstDate s = lastDate s → cagr fpow s = 0) := by
  have hne : dates s ≠ [] := by
    rcases s with _ | ⟨p, t⟩
    · simp at h2
    · simp [dates]
  have hle : firstDate s ≤ lastDate s := headI_le_getLast _ hsort hne
  constructor
  · intro hned
    have hlt : firstDate s < lastDate s := lt_of_le_of_ne hle hned
    have hdays : 0 < days s := by
      rw [days]
      omega
    have hyears : 0 < years s := by
      rw [years]
      apply div_pos
      · exact_mod_cast hdays
      · norm_num
    refine ⟨hyears, by rw [years, days], ?_⟩
    rw [cagr, if_pos hyears]
  · intro heq
    have hy0 : years s = 0 := by
      rw [years, days, heq]
      simp
    rw [cagr, if_neg]
    rw [hy0]
    exact lt_irrefl 0

/-- Concrete check for claim C2 at the spec's first scenario. -/
theorem cagr_formula_checked :
    0 < years [((0 : ℤ), (100 : ℚ)), (365, 120)] :=
  ((cagr_formula (fun a _ => a) [((0 : ℤ), (100 : ℚ)), (365, 120)]
    (by decide) (by decide) (by decide)).1 (by decide)).1

/-- Claim C1: compute_metrics is all-or-nothing over exactly two error
kinds: it fails with the insufficient-data error precisely on an empty
series, fails with the invalid-baseline error precisely on a non-empty
series whose first value is zero or negative, and otherwise returns a
complete result; no other outcome exists. -/
theorem compute_metrics_trichotomy (fpow : ℚ → ℚ → ℚ) (s : List (ℤ × ℚ)) :
    (s = [] ∧ compute_metrics fpow s = .error .insufficientData) ∨
    (s ≠ [] ∧ firstVal s ≤ 0 ∧
      compute_metrics fpow s = .error .invalidBaseline) ∨
    (s ≠ [] ∧ 0 < firstVal s ∧ ∃ r, compute_metrics fpow s = .ok r) := by
  by_cases h1 : s = []
  · exact Or.inl ⟨h1, by rw [compute_metrics, if_pos h1]⟩
  · by_cases h2 : firstVal s ≤ 0
    · exact Or.inr (Or.inl ⟨h1, h2, by rw [compute_metrics, if_neg h1, if_pos h2]⟩)
    · exact Or.inr (Or.inr ⟨h1, lt_of_not_le h2,
        ⟨_, by rw [compute_metrics, if_neg h1, if_neg h2]⟩⟩)

/-- Claim C8: the reward-to-risk ratio is the cagr over the absolute
maximum drawdown when the latter is nonzero (the divisor being nonzero
under the guard), and zero when the maximum drawdown is zero. -/
theorem sharpe_ratio_spec (fpow : ℚ → ℚ → ℚ) (s : List (ℤ × ℚ)) :
    (max_drawdown (values s) ≠ 0 →
      |max_drawdown (values s)| ≠ 0 ∧
      sharpe_ratio fpow s = cagr fpow s / |max_drawdown (values s)|) ∧
    (max_drawdown (values s) = 0 → sharpe_ratio fpow s = 0) := by
  constructor
  · intro h
    exact ⟨abs_ne_zero.mpr h, by rw [sharpe_ratio, if_pos h]⟩
  · intro h
    rw [sharpe_ratio, if_neg]
    simp [h]

/-- Claim C9: on a single-entry series with a strictly positive value,
compute_metrics succeeds with a zero total return, the singleton zero
drawdown series, and the cagr and risk ratio reported as zero by
convention, the cagr flagged as not meaningful. -/
theorem compute_metrics_single_entry (fpow : ℚ → ℚ → ℚ) (d : ℤ) (v : ℚ)
    (hv : 0 < v) :
    compute_metrics fpow [(d, v)] =
      .ok { total_return := 0, cagr := 0, cagr_defined := false,
            drawdown_series := [0], max_drawdown := 0, risk_ratio := 0 } := by
  have hfv : firstVal [(d, v)] = v := rfl
  have hyears : years [(d, v)] = 0 := by
    rw [years, days]
    norm_num [lastDate, firstDate, dates]
  have htr : total_return [(d, v)] = 0 := by
    rw [total_return]
    show v / v - 1 = 0
    rw [div_self hv.ne', sub_self]
  have hdd : drawdown_alt (values [(d, v)]) = [0] := by
    show [valAt [v] 0 / runMax [v] 0 - 1] = [0]
    show [v / v - 1] = [0]
    rw [div_self hv.ne', sub_self]
  have hcagr : cagr fpow [(d, v)] = 0 := by
    rw [cagr, if_neg]
    rw [hyears]
    exact lt_irrefl 0
  have hcd : decide (0 < years ([(d, v)] : List (ℤ × ℚ))) = false := by
    rw [hyears]
    decide
  have hmdd : seriesMin (drawdown_alt (values [(d, v)])) = 0 := by
    rw [hdd]
    rfl
  rw [compute_metrics, if_neg (List.cons_ne_nil _ _),
    if_neg (show ¬firstVal [(d, v)] ≤ 0 from by rw [hfv]; exact not_le.mpr hv)]
  rw [Except.ok.injEq, MetricsResult.mk.injEq]
  refine ⟨htr, hcagr, hcd, hdd, hmdd, ?_⟩
  rw [hmdd]
  simp

/-- Concrete check for claim C9 at the spec's single-entry scenario. -/
theorem compute_metrics_single_entry_checked :
    compute_metrics (fun a _ => a) [((0 : ℤ), (100 : ℚ))] =
      .ok { total_return := 0, cagr := 0, cagr_defined := false,
            drawdown_series := [0], max_drawdown := 0, risk_ratio := 0 } :=
  compute_metrics_single_entry (fun a _ => a) 0 100 (by decide)

/-! Helper lemmas on the groupby-last deduplication. -/

theorem dedupSort_map_fst (rows : List (ℤ × Option ℚ)) :
    (dedupSort rows).map Prod.fst =
      List.insertionSort (fun a b => a ≤ b) (rows.map Prod.fst).dedup := by
  rw [dedupSort, List.map_map]
  have hid : (Prod.fst ∘ fun d => ((d, groupLast rows d) : ℤ × Option ℚ)) = id := rfl
  rw [hid, List.map_id]

theorem sorted_lt_of_sorted_le_nodup (l : List ℤ)
    (hs : List.Sorted (fun a b => a ≤ b) l) (hn : l.Nodup) :
    List.Sorted (fun a b => a < b) l :=
  (List.Pairwise.and hs hn).imp (fun h => lt_of_le_of_ne h.1 h.2)

theorem foldl_keep_some (l : List (ℤ × ℚ)) (a : Option ℚ) :
    (l.map (fun p => (p.1, some p.2))).foldl
      (fun acc p =>
        match p.2 with
        | some v => some v
        | none => acc) a =
      (l.getLast?.map (fun p => (some p.2 : Option ℚ))).getD a := by
  induction l using List.reverseRecOn with
  | nil => rfl
  | append_singleton t p ih =>
    rw [List.map_append, List.foldl_append, List.getLast?_concat]
    rfl

theorem groupLast_lift (rows : List (ℤ × ℚ)) (d : ℤ) :
    groupLast (rows.map (fun p => (p.1, some p.2))) d =
      ((rows.filter (fun p => p.1 = d)).getLast?).map Prod.snd := by
  rw [groupLast]
  have hf : (rows.map (fun p => (p.1, some p.2))).filter
      (fun p => p.1 = d) =
      (rows.filter (fun p => p.1 = d)).map (fun p => (p.1, some p.2)) := by
    induction rows with
    | nil => rfl
    | cons p t ih =>
      by_cases h : p.1 = d
      · simp [List.filter_cons, h, ih]
      · simp [List.filter_cons, h, ih]
  rw [hf, foldl_keep_some]
  cases hg : (rows.filter (fun p => p.1 = d)).getLast? with
  | none => rfl
  | some p => rfl

theorem foldl_keep_some_raw (l : List (ℤ × Option ℚ)) (a : Option ℚ) :
    l.foldl
      (fun acc p =>
        match p.2 with
        | some v => some v
        | none => acc) a =
      ((l.filterMap (fun p => p.2)).getLast?.map
        (fun v => (some v : Option ℚ))).getD a := by
  induction l using List.reverseRecOn with
  | nil => rfl
  | append_singleton t p ih =>
    rw [List.foldl_append, List.filterMap_append, ih]
    cases hp : p.2 with
    | some v =>
      simp [hp, List.filterMap_cons, List.getLast?_concat]
    | none =>
      simp [hp, List.filterMap_cons]

theorem groupLast_eq_getLast_filterMap (rows : List (ℤ × Option ℚ)) (d : ℤ) :
    groupLast rows d =
      ((rows.filter (fun q => q.1 = d)).filterMap (fun q => q.2)).getLast? := by
  rw [groupLast, foldl_keep_some_raw]
  cases hg : ((rows.filter (fun q => q.1 = d)).filterMap (fun q => q.2)).getLast? with
  | none => rfl
  | some v => rfl

theorem filter_eq_singleton_of_nodup (rows : List (ℤ × Option ℚ))
    (p : ℤ × Option ℚ) (hnd : (rows.map Prod.fst).Nodup) (hp : p ∈ rows) :
    rows.filter (fun q => q.1 = p.1) = [p] := by
  induction rows with
  | nil => simp at hp
  | cons r t ih =>
    rw [List.map_cons, List.nodup_cons] at hnd
    rcases List.mem_cons.mp hp with he | hm
    · subst he
      have ht : t.filter (fun q => q.1 = p.1) = [] := by
        rw [List.filter_eq_nil_iff]
        intro q hq
        simp only [decide_eq_true_eq]
        intro hq1
        exact hnd.1 (hq1 ▸ List.mem_map_of_mem Prod.fst hq)
      simp [List.filter_cons, ht]
    · have hr : ¬(r.1 = p.1) := by
        intro h
        exact hnd.1 (h ▸ List.mem_map_of_mem Prod.fst hm)
      simp only [List.filter_cons, hr, decide_False, if_false]
      exact ih hnd.2 hm

theorem map_groupLast_self (rows : List (ℤ × Option ℚ))
    (hnd : (rows.map Prod.fst).Nodup) :
    (rows.map Prod.fst).map (fun d => (d, groupLast rows d)) = rows := by
  rw [List.map_map]
  have hcong : ∀ p ∈ rows,
      ((fun d => (d, groupLast rows d)) ∘ Prod.fst) p = id p := by
    intro p hp
    have hfil := filter_eq_singleton_of_nodup rows p hnd hp
    simp only [Function.comp, id]
    rw [groupLast, hfil]
    cases hp2 : p.2 with
    | some v =>
      show (p.1, match p.2 with | some v => some v | none => none) = p
      rw [hp2]
      show (p.1, some v) = p
      rw [← hp2]
    | none =>
      show (p.1, match p.2 with | some v => some v | none => none) = p
      rw [hp2]
      show (p.1, (none : Option ℚ)) = p
      rw [← hp2]
  rw [List.map_congr_left hcong, List.map_id]

theorem dedupSort_perm (rows : List (ℤ × Option ℚ))
    (hnd : (rows.map Prod.fst).Nodup) : (dedupSort rows).Perm rows := by
  rw [dedupSort, List.dedup_eq_self.mpr hnd]
  exact ((List.perm_insertionSort _ _).map _).trans
    (by rw [map_groupLast_self rows hnd])

theorem dedupSort_sorted_fst (rows : List (ℤ × Option ℚ)) :
    List.Pairwise (fun p q : ℤ × Option ℚ => p.1 < q.1) (dedupSort rows) := by
  have h1 := dedupSort_map_fst rows
  have hs : List.Sorted (fun a b : ℤ => a ≤ b)
      (List.insertionSort (fun a b => a ≤ b) (rows.map Prod.fst).dedup) :=
    List.sorted_insertionSort _ _
  have hn : (List.insertionSort (fun a b => a ≤ b)
      (rows.map Prod.fst).dedup).Nodup :=
    (List.perm_insertionSort _ _).nodup_iff.mpr (List.nodup_dedup _)
  have hlt := sorted_lt_of_sorted_le_nodup _ hs hn
  rw [← h1] at hlt
  exact List.pairwise_map.mp hlt

theorem sortByDate_sorted_fst (rows : List (ℤ × Option ℚ))
    (hnd : (rows.map Prod.fst).Nodup) :
    List.Pairwise (fun p q : ℤ × Option ℚ => p.1 < q.1) (sortByDate rows) := by
  have hs : List.Sorted (fun p q : ℤ × Option ℚ => p.1 ≤ q.1) (sortByDate rows) :=
    List.sorted_insertionSort _ _
  have hn : ((sortByDate rows).map Prod.fst).Nodup :=
    (((List.perm_insertionSort _ _ : (sortByDate rows).Perm rows)).map
      Prod.fst).nodup_iff.mpr hnd
  have hne : List.Pairwise (fun p q : ℤ × Option ℚ => p.1 ≠ q.1) (sortByDate rows) :=
    List.pairwise_map.mp hn
  exact (List.Pairwise.and hs hne).imp (fun h => lt_of_le_of_ne h.1 h.2)

theorem dedupSort_eq_sortByDate (rows : List (ℤ × Option ℚ))
    (hnd : (rows.map Prod.fst).Nodup) : dedupSort rows = sortByDate rows :=
  List.eq_of_perm_of_sorted
    ((dedupSort_perm rows hnd).trans
      (List.perm_insertionSort _ _ : (sortByDate rows).Perm rows).symm)
    (dedupSort_sorted_fst rows) (sortByDate_sorted_fst rows hnd)

/-- Claim C6: deduplication groups by calendar date keeping the last entry
in original input order for each date, and returns the rows sorted strictly
ascending by date over exactly the input's dates; in particular the spec's
deduplication example holds. -/
theorem dedupSort_spec (rows : List (ℤ × ℚ)) :
    List.Sorted (fun p q : ℤ × Option ℚ => p.1 < q.1)
      (dedupSort (rows.map (fun p => (p.1, some p.2)))) ∧
    (∀ d : ℤ, d ∈ (dedupSort (rows.map (fun p => (p.1, some p.2)))).map Prod.fst ↔
      d ∈ rows.map Prod.fst) ∧
    (∀ d q, (d, q) ∈ dedupSort (rows.map (fun p => (p.1, some p.2))) →
      q = ((rows.filter (fun p => p.1 = d)).getLast?).map Prod.snd) ∧
    dedupSort [((0 : ℤ), some (100 : ℚ)), (0, some 110), (1, some 120)] =
      [(0, some 110), (1, some 120)] := by
  refine ⟨dedupSort_sorted_fst _, ?_, ?_, by decide⟩
  · intro d
    rw [dedupSort_map_fst]
    rw [(List.perm_insertionSort _ _).mem_iff, List.mem_dedup, List.map_map]
    rfl
  · intro d q hdq
    rw [dedupSort] at hdq
    rcases List.mem_map.mp hdq with ⟨e, _, he⟩
    have h1 : e = d := congrArg Prod.fst he
    have h2 : groupLast (rows.map (fun p => (p.1, some p.2))) e = q :=
      congrArg Prod.snd he
    rw [← h2, h1, groupLast_lift]

/-- Claim C7 as stated is false on the code: a date whose every entry fails
numeric coercion is not excluded from the result; the single non-coercible
row below survives as an undefined entry. -/
theorem dedupSort_keeps_undefined :
    dedupSort [((0 : ℤ), (none : Option ℚ))] = [(0, none)] ∧
    ¬(∀ p ∈ dedupSort [((0 : ℤ), (none : Option ℚ))], p.2 ≠ none) := by
  decide

/-- Claim C7 amended: a value that fails numeric coercion is never selected
for a date that has at least one coercible entry (the selected value is the
last coercible one in input order, and is undefined only when the whole
group failed coercion), deduplication is a total function, and the empty
input yields the valid empty result. -/
theorem dedupSort_last_coercible (rows : List (ℤ × Option ℚ)) :
    (∀ p, p ∈ dedupSort rows →
      p.2 = ((rows.filter (fun q => q.1 = p.1)).filterMap
        (fun q => q.2)).getLast?) ∧
    dedupSort ([] : List (ℤ × Option ℚ)) = [] := by
  constructor
  · intro p hp
    rw [dedupSort] at hp
    rcases List.mem_map.mp hp with ⟨e, _, he⟩
    rw [← he]
    exact groupLast_eq_getLast_filterMap rows e
  · rfl

/-! Lemmas connecting the coerced-series view to the raw frame, used by the
equivalence claim. -/

theorem seriesOf_cons_some (d : ℤ) (v : ℚ) (t : List (ℤ × Option ℚ)) :
    seriesOf ((d, some v) :: t) = (d, v) :: seriesOf t := rfl

theorem dates_seriesOf (L : List (ℤ × Option ℚ)) (h : ∀ p ∈ L, p.2 ≠ none) :
    dates (seriesOf L) = L.map Prod.fst := by
  induction L with
  | nil => rfl
  | cons p t ih =>
    rcases p with ⟨d, o⟩
    cases o with
    | none =>
      exact absurd rfl (h (d, none) (List.mem_cons_self _ _))
    | some v =>
      rw [seriesOf_cons_some, List.map_cons]
      show (d, v).1 :: dates (seriesOf t) = d :: t.map Prod.fst
      rw [ih (fun q hq => h q (List.mem_cons_of_mem _ hq))]

theorem headI_lt_getLast (l : List ℤ) (hs : List.Sorted (fun a b => a ≤ b) l)
    (hn : l.Nodup) (h2 : 2 ≤ l.length) : l.headI < l.getLast?.getD 0 := by
  cases l with
  | nil => simp at h2
  | cons a t =>
    cases t with
    | nil => simp at h2
    | cons b u =>
      have hne : (b :: u : List ℤ) ≠ [] := List.cons_ne_nil _ _
      have hne2 : (a :: b :: u : List ℤ) ≠ [] := List.cons_ne_nil _ _
      have hlast : (a :: b :: u).getLast? = some ((b :: u).getLast hne) := by
        rw [List.getLast?_eq_getLast _ hne2]
        exact congrArg some (List.getLast_cons hne)
      rw [hlast, Option.getD_some, List.headI]
      have hmem := List.getLast_mem hne
      have hle : a ≤ (b :: u).getLast hne := (List.sorted_cons.mp hs).1 _ hmem
      have hanotin : a ∉ (b :: u : List ℤ) := (List.nodup_cons.mp hn).1
      exact lt_of_le_of_ne hle (fun heq => hanotin (heq ▸ hmem))

/-- Claim C10 as stated is false on the code: on a duplicate-free
single-row input whose value coerces and is positive, Home.py reports a
cagr of zero while main.py divides one by a zero year span and stops with
ZeroDivisionError, so the two scripts do not compute the same cagr. -/
theorem home_main_cagr_differ :
    ([((0 : ℤ), some (100 : ℚ))].map Prod.fst).Nodup ∧
    (∀ p ∈ [((0 : ℤ), some (100 : ℚ))], p.2 ≠ none) ∧
    0 < firstVal (seriesOf (sortByDate [((0 : ℤ), some (100 : ℚ))])) ∧
    some (cagr (fun a _ => a) (seriesOf (dedupSort [((0 : ℤ), some (100 : ℚ))]))) ≠
      cagr_main (fun a _ => a) (seriesOf (sortByDate [((0 : ℤ), some (100 : ℚ))])) := by
  refine ⟨by decide, by decide, by decide, ?_⟩
  have h1 : years (seriesOf (sortByDate [((0 : ℤ), some (100 : ℚ))])) = 0 := by
    show (((0 : ℤ) - 0 : ℤ) : ℚ) / (365.25 : ℚ) = 0
    norm_num
  have h2 : cagr_main (fun a _ => a)
      (seriesOf (sortByDate [((0 : ℤ), some (100 : ℚ))])) = none := by
    rw [cagr_main, if_pos h1]
  rw [h2]
  exact Option.some_ne_none _

/-- Claim C10 amended: on every input of at least two rows in which all
dates are distinct, all values coerce, and the first value of the sorted
series is strictly positive, the total return, cagr and maximum drawdown
of Home.py's deduplicated pipeline agree with those of main.py's raw sorted
pipeline (main.py's cagr being defined there). -/
theorem home_main_metrics_agree (fpow : ℚ → ℚ → ℚ)
    (rows : List (ℤ × Option ℚ)) (h2 : 2 ≤ rows.length)
    (hnd : (rows.map Prod.fst).Nodup) (hsome : ∀ p ∈ rows, p.2 ≠ none)
    (hpos : 0 < firstVal (seriesOf (sortByDate rows))) :
    total_return (seriesOf (dedupSort rows)) =
      total_return (seriesOf (sortByDate rows)) ∧
    some (cagr fpow (seriesOf (dedupSort rows))) =
      cagr_main fpow (seriesOf (sortByDate rows)) ∧
    max_drawdown (values (seriesOf (dedupSort rows))) =
      max_drawdown (values (seriesOf (sortByDate rows))) := by
  have heq := dedupSort_eq_sortByDate rows hnd
  rw [heq]
  have hperm : (sortByDate rows).Perm rows := List.perm_insertionSort _ _
  have hsome2 : ∀ p ∈ sortByDate rows, p.2 ≠ none :=
    fun p hp => hsome p (hperm.mem_iff.mp hp)
  have hdates : dates (seriesOf (sortByDate rows)) = (sortByDate rows).map Prod.fst :=
    dates_seriesOf _ hsome2
  have hsortedfst := sortByDate_sorted_fst rows hnd
  have hsle : List.Sorted (fun a b : ℤ => a ≤ b) ((sortByDate rows).map Prod.fst) :=
    List.pairwise_map.mpr (hsortedfst.imp (fun h => le_of_lt h))
  have hnd2 : ((sortByDate rows).map Prod.fst).Nodup :=
    ((hperm.map Prod.fst)).nodup_iff.mpr hnd
  have hlen : 2 ≤ ((sortByDate rows).map Prod.fst).length := by
    rw [List.length_map, hperm.length_eq]
    exact h2
  have hlt : firstDate (seriesOf (sortByDate rows)) <
      lastDate (seriesOf (sortByDate rows)) := by
    rw [firstDate, lastDate, hdates]
    exact headI_lt_getLast _ hsle hnd2 hlen
  have hyears : 0 < years (seriesOf (sortByDate rows)) := by
    rw [years, days]
    apply div_pos
    · exact_mod_cast (by omega : (0 : ℤ) < lastDate (seriesOf (sortByDate rows)) -
        firstDate (seriesOf (sortByDate rows)))
    · norm_num
  refine ⟨rfl, ?_, rfl⟩
  rw [cagr, if_pos hyears, cagr_main, if_neg hyears.ne']

/-- Concrete check for claim C10's amended statement on the spec's
two-entry scenario. -/
theorem home_main_metrics_agree_checked :
    some (cagr (fun a _ => a)
        (seriesOf (dedupSort [((0 : ℤ), some (100 : ℚ)), (365, some 120)]))) =
      cagr_main (fun a _ => a)
        (seriesOf (sortByDate [((0 : ℤ), some (100 : ℚ)), (365, some 120)])) :=
  (home_main_metrics_agree (fun a _ => a)
    [((0 : ℤ), some (100 : ℚ)), (365, some 120)]
    (by decide) (by decide) (by decide) (by decide)).2.1

end Portfolio
